import Mathlib

/-!
# Verification of the note codec (`src/utils/notesFormatter.ts`)

Shallow embedding of the structured-note encoding subsystem: `formatNotes`,
`parseNotes`, `mergeNotes`, `addLink`, `removeLink`.  JavaScript strings are
modelled as `List Char`; `String.prototype.trim`, `split`, `Array.join`,
`Array.filter(Boolean)` and `new Set` deduplication are embedded as executable
functions below, each translated directly from the source.
-/

namespace NotesCodec

/-- JavaScript string type, modelled as a list of characters. -/
abbrev Str := List Char

/-- Whitespace characters stripped by `String.prototype.trim` (ASCII white
space plus the common Unicode members NBSP and BOM). -/
def isWs (c : Char) : Bool :=
  c = ' ' || c = '\t' || c = '\n' || c = '\r' ||
  c = Char.ofNat 11 || c = Char.ofNat 12 || c = Char.ofNat 160 || c = Char.ofNat 65279

/-- Drop leading whitespace. -/
def trimLeft : Str → Str
  | [] => []
  | c :: cs => if isWs c then trimLeft cs else c :: cs

/-- Drop trailing whitespace. -/
def trimRight (s : Str) : Str := (trimLeft s.reverse).reverse

/-- `String.prototype.trim`: drop leading and trailing whitespace. -/
def trim (s : Str) : Str := trimRight (trimLeft s)

/-- One character of `String.prototype.split(sep)`, processed right to left. -/
def splitStep (sep : Char) (c : Char) : List Str → List Str
  | [] => [[c]]
  | a :: as => if c = sep then [] :: a :: as else (c :: a) :: as

/-- `String.prototype.split(sep)` for a single-character separator. -/
def splitOnChar (sep : Char) (s : Str) : List Str :=
  s.foldr (splitStep sep) [[]]

/-- `Array.prototype.join(sep)`. -/
def joinSep (sep : Str) : List Str → Str
  | [] => []
  | [x] => x
  | x :: xs => x ++ sep ++ joinSep sep xs

/-- The literal header line `Critical:`. -/
def criticalHeader : Str := "Critical:".data

/-- The literal header line `Related:`. -/
def relatedHeader : Str := "Related:".data

/-- `NoteComponents` from `notesFormatter.ts`: all three fields optional. -/
structure NoteComponents where
  content : Option Str := none
  critical : Option Str := none
  links : Option (List Str) := none
deriving DecidableEq

/-- JavaScript truthiness of an optional string (`undefined` and `""` are falsy). -/
def optTruthy : Option Str → Bool
  | none => false
  | some s => !s.isEmpty

/-- JavaScript truthiness of `links?.length` (`undefined` and `[]` are falsy). -/
def linksTruthy : Option (List Str) → Bool
  | none => false
  | some l => !l.isEmpty

/-- `formatNotes`: push the truthy blocks, join with blank lines, trim. -/
def formatNotes (components : NoteComponents) : Str :=
  let parts : List Str :=
    (if optTruthy components.content then [components.content.getD []] else []) ++
    (if optTruthy components.critical then
      [criticalHeader ++ '\n' :: components.critical.getD []] else []) ++
    (if linksTruthy components.links then
      [relatedHeader ++ '\n' :: joinSep (',' :: ' ' :: []) (components.links.getD [])] else [])
  trim (joinSep ('\n' :: '\n' :: []) parts)

/-- The parser's `currentSection` variable. -/
inductive ParseSection
  | content
  | critical
  | related
deriving DecidableEq

/-- Loop state of `parseNotes`: the record under construction, the buffered
content lines, and the current section. -/
structure PState where
  comps : NoteComponents
  contentLines : List Str
  sec : ParseSection
deriving DecidableEq

/-- One iteration of the `for (const line of lines)` loop in `parseNotes`. -/
def parseStep (st : PState) (line : Str) : PState :=
  let t := trim line
  if t = criticalHeader then { st with sec := ParseSection.critical }
  else if t = relatedHeader then { st with sec := ParseSection.related }
  else if t.isEmpty then st
  else
    match st.sec with
    | ParseSection.critical =>
        { st with comps := { st.comps with critical := some t }, sec := ParseSection.content }
    | ParseSection.related =>
        { st with
          comps := { st.comps with
            links := some (((splitOnChar ',' t).map trim).filter (fun x => !x.isEmpty)) },
          sec := ParseSection.content }
    | ParseSection.content => { st with contentLines := st.contentLines ++ [t] }

/-- `parseNotes`: falsy input gives `{}`; otherwise run the line state machine
and, if any content lines were buffered, join them with newlines. -/
def parseNotes (notes : Option Str) : NoteComponents :=
  match notes with
  | none => {}
  | some s =>
      if s.isEmpty then {}
      else
        let fin := (splitOnChar '\n' s).foldl parseStep ⟨{}, [], ParseSection.content⟩
        if fin.contentLines.isEmpty then fin.comps
        else { fin.comps with content := some (joinSep ('\n' :: []) fin.contentLines) }

/-- `[...new Set(l)]`: first-seen-order deduplication, via an accumulator of
already-seen elements. -/
def dedupFSAux : List Str → List Str → List Str
  | _, [] => []
  | seen, x :: xs => if x ∈ seen then dedupFSAux seen xs else x :: dedupFSAux (x :: seen) xs

/-- `[...new Set(l)]` with an empty initial accumulator. -/
def dedupFS (l : List Str) : List Str := dedupFSAux [] l

/-- `mergeNotes`: content concatenated when both truthy, critical overridden by
nullish-coalescing, links combined and deduplicated when the union is non-empty. -/
def mergeNotes (existing : NoteComponents) (updates : NoteComponents) : NoteComponents :=
  let mergedContent : Option Str :=
    if optTruthy updates.content && optTruthy existing.content then
      some (existing.content.getD [] ++ '\n' :: '\n' :: updates.content.getD [])
    else (updates.content).orElse (fun _ => existing.content)
  let mergedCritical : Option Str := (updates.critical).orElse (fun _ => existing.critical)
  let allLinks : List Str := existing.links.getD [] ++ updates.links.getD []
  { content := mergedContent, critical := mergedCritical,
    links := if allLinks.isEmpty then none else some (dedupFS allLinks) }

/-- `addLink`: parse, insert the id through `new Set`, re-format. -/
def addLink (notes : Option Str) (linkId : Str) : Str :=
  let components := parseNotes notes
  formatNotes { components with
    links := some (dedupFS (components.links.getD [] ++ [linkId])) }

/-- `removeLink`: parse, filter the id out, delete the field when it became
empty, re-format. -/
def removeLink (notes : Option Str) (linkId : Str) : Str :=
  let components := parseNotes notes
  let filtered := components.links.map (fun l => l.filter (fun id => decide (¬ id = linkId)))
  formatNotes { components with links := if filtered = some [] then none else filtered }

/-- `setCritical`: parse, overwrite the critical field, re-format. -/
def setCritical (notes : Option Str) (critical : Str) : Str :=
  let components := parseNotes notes
  formatNotes { components with critical := some critical }

/-- `clearCritical`: parse, delete the critical field, re-format. -/
def clearCritical (notes : Option Str) : Str :=
  let components := parseNotes notes
  formatNotes { components with critical := none }

/-! ## Lemmas about `trim` -/

/-- The first character, if any, is not whitespace. -/
def startsNonWsB : Str → Bool
  | [] => true
  | c :: _ => !isWs c

theorem startsNonWsB_trimLeft (s : Str) : startsNonWsB (trimLeft s) = true := by
  induction s with
  | nil => rfl
  | cons c cs ih =>
    simp only [trimLeft]
    by_cases h : isWs c = true
    · simp [h, ih]
    · simp [h, startsNonWsB]

theorem trimLeft_eq_self {s : Str} (h : startsNonWsB s = true) : trimLeft s = s := by
  cases s with
  | nil => rfl
  | cons c cs =>
    simp only [startsNonWsB, Bool.not_eq_true'] at h
    simp [trimLeft, h]

theorem exists_append_trimLeft (s : Str) : ∃ u, s = u ++ trimLeft s := by
  induction s with
  | nil => exact ⟨[], rfl⟩
  | cons c cs ih =>
    by_cases h : isWs c = true
    · obtain ⟨u, hu⟩ := ih
      exact ⟨c :: u, by simp [trimLeft, h]; exact hu⟩
    · exact ⟨[], by simp [trimLeft, h]⟩

theorem all_ws_of_trimLeft_eq_nil {s : Str} (h : trimLeft s = []) :
    ∀ c ∈ s, isWs c = true := by
  induction s with
  | nil => intro c hc; cases hc
  | cons c cs ih =>
    intro d hd
    by_cases hw : isWs c = true
    · simp only [trimLeft, hw, if_true] at h
      rcases List.mem_cons.mp hd with rfl | hmem
      · exact hw
      · exact ih h d hmem
    · simp [trimLeft, hw] at h

theorem trimRight_eq_self {s : Str} (h : startsNonWsB s.reverse = true) : trimRight s = s := by
  unfold trimRight
  rw [trimLeft_eq_self h, List.reverse_reverse]

theorem exists_trimRight_append (s : Str) : ∃ u, s = trimRight s ++ u := by
  obtain ⟨u, hu⟩ := exists_append_trimLeft s.reverse
  refine ⟨u.reverse, ?_⟩
  unfold trimRight
  calc s = s.reverse.reverse := by rw [List.reverse_reverse]
    _ = (u ++ trimLeft s.reverse).reverse := by rw [← hu]
    _ = (trimLeft s.reverse).reverse ++ u.reverse := by rw [List.reverse_append]

theorem trimRight_ne_nil {c : Char} {cs : Str} (h : isWs c = false) :
    trimRight (c :: cs) ≠ [] := by
  intro hnil
  have hrev : trimLeft (c :: cs).reverse = [] := by
    unfold trimRight at hnil
    have := congrArg List.reverse hnil
    rwa [List.reverse_reverse] at this
  have : isWs c = true := all_ws_of_trimLeft_eq_nil hrev c (by simp)
  rw [h] at this
  cases this

theorem startsNonWsB_trim (s : Str) : startsNonWsB (trim s) = true := by
  unfold trim
  have hl := startsNonWsB_trimLeft s
  cases hleft : trimLeft s with
  | nil => decide
  | cons c cs =>
    rw [hleft] at hl
    simp only [startsNonWsB, Bool.not_eq_true'] at hl
    obtain ⟨u, hu⟩ := exists_trimRight_append (c :: cs)
    have hne := @trimRight_ne_nil c cs hl
    cases htr : trimRight (c :: cs) with
    | nil => exact absurd htr hne
    | cons d ds =>
      rw [htr] at hu
      have heq : c :: cs = d :: (ds ++ u) := by simpa using hu
      injection heq with hcd _
      subst hcd
      simp [startsNonWsB, hl]

theorem reverse_trim (s : Str) : (trim s).reverse = trimLeft (trimLeft s).reverse := by
  unfold trim trimRight
  rw [List.reverse_reverse]

theorem startsNonWsB_trim_reverse (s : Str) : startsNonWsB (trim s).reverse = true := by
  rw [reverse_trim]
  exact startsNonWsB_trimLeft _

theorem trim_eq_self {s : Str} (h1 : startsNonWsB s = true)
    (h2 : startsNonWsB s.reverse = true) : trim s = s := by
  unfold trim
  rw [trimLeft_eq_self h1, trimRight_eq_self h2]

theorem trim_idem (s : Str) : trim (trim s) = trim s :=
  trim_eq_self (startsNonWsB_trim s) (startsNonWsB_trim_reverse s)

theorem mem_of_mem_trimLeft {c : Char} {s : Str} (h : c ∈ trimLeft s) : c ∈ s := by
  obtain ⟨u, hu⟩ := exists_append_trimLeft s
  rw [hu]
  exact List.mem_append_right u h

theorem mem_of_mem_trim {c : Char} {s : Str} (h : c ∈ trim s) : c ∈ s := by
  unfold trim trimRight at h
  rw [List.mem_reverse] at h
  have h2 := mem_of_mem_trimLeft h
  rw [List.mem_reverse] at h2
  exact mem_of_mem_trimLeft h2

theorem trim_nil : trim ([] : Str) = [] := rfl

theorem startsNonWsB_append {a : Str} (b : Str) (h : a ≠ []) :
    startsNonWsB (a ++ b) = startsNonWsB a := by
  cases a with
  | nil => exact absurd rfl h
  | cons c cs => rfl

/-! ## Lemmas about `splitOnChar` and `joinSep` -/

theorem splitOnChar_cons (sep c : Char) (s : Str) :
    splitOnChar sep (c :: s) = splitStep sep c (splitOnChar sep s) := rfl

theorem exists_splitOnChar_cons (sep : Char) (s : Str) :
    ∃ h t, splitOnChar sep s = h :: t := by
  induction s with
  | nil => exact ⟨[], [], rfl⟩
  | cons c s ih =>
    obtain ⟨h, t, hht⟩ := ih
    rw [splitOnChar_cons, hht]
    unfold splitStep
    by_cases hc : c = sep
    · exact ⟨[], h :: t, by simp [hc]⟩
    · exact ⟨c :: h, t, by simp [hc]⟩

theorem foldr_splitStep_extend (sep : Char) (s : Str) (r : List Str) :
    s.foldr (splitStep sep) ([] :: r) = splitOnChar sep s ++ r := by
  induction s with
  | nil => rfl
  | cons c s ih =>
    obtain ⟨h, t, hht⟩ := exists_splitOnChar_cons sep s
    rw [List.foldr_cons, ih, splitOnChar_cons, hht]
    unfold splitStep
    by_cases hc : c = sep
    · simp [hc]
    · simp [hc]

theorem splitOnChar_append (sep : Char) (a b : Str) :
    splitOnChar sep (a ++ sep :: b) = splitOnChar sep a ++ splitOnChar sep b := by
  unfold splitOnChar
  rw [List.foldr_append]
  have hb : (sep :: b).foldr (splitStep sep) [[]] = [] :: b.foldr (splitStep sep) [[]] := by
    obtain ⟨h, t, hht⟩ := exists_splitOnChar_cons sep b
    unfold splitOnChar at hht
    rw [List.foldr_cons, hht]
    unfold splitStep
    simp
  rw [hb]
  exact foldr_splitStep_extend sep a _

theorem splitOnChar_of_not_mem {sep : Char} {s : Str} (h : sep ∉ s) :
    splitOnChar sep s = [s] := by
  induction s with
  | nil => rfl
  | cons c s ih =>
    have hc : c ≠ sep := fun hcs => h (hcs ▸ List.mem_cons_self c s)
    have hs : sep ∉ s := fun hmem => h (List.mem_cons_of_mem c hmem)
    rw [splitOnChar_cons, ih hs]
    unfold splitStep
    simp [fun hsc : c = sep => hc hsc]

theorem not_mem_of_mem_splitOnChar {sep : Char} {s : Str} :
    ∀ p ∈ splitOnChar sep s, sep ∉ p := by
  induction s with
  | nil =>
    intro p hp
    simp only [splitOnChar, List.foldr_nil, List.mem_singleton] at hp
    simp [hp]
  | cons c s ih =>
    intro p hp
    obtain ⟨h, t, hht⟩ := exists_splitOnChar_cons sep s
    rw [splitOnChar_cons, hht] at hp
    unfold splitStep at hp
    by_cases hc : c = sep
    · simp only [hc, if_true] at hp
      rcases List.mem_cons.mp hp with rfl | hp2
      · simp
      · exact ih p (hht ▸ hp2)
    · simp only [hc, if_false] at hp
      rcases List.mem_cons.mp hp with rfl | hp2
      · intro hmem
        rcases List.mem_cons.mp hmem with rfl | hmem2
        · exact hc rfl
        · exact ih h (hht ▸ List.mem_cons_self h t) hmem2
      · exact ih p (hht ▸ List.mem_cons_of_mem h hp2)

theorem joinSep_pair (sep : Str) (a b : Str) (l : List Str) :
    joinSep sep (a :: b :: l) = a ++ sep ++ joinSep sep (b :: l) := rfl

theorem joinSep_splitOnChar (sep : Char) (s : Str) :
    joinSep [sep] (splitOnChar sep s) = s := by
  induction s with
  | nil => rfl
  | cons c s ih =>
    obtain ⟨h, t, hht⟩ := exists_splitOnChar_cons sep s
    rw [splitOnChar_cons, hht]
    unfold splitStep
    by_cases hc : c = sep
    · subst hc
      simp only [if_true]
      rw [joinSep_pair]
      rw [hht] at ih
      simp [ih]
    · simp only [hc, if_false]
      rw [hht] at ih
      cases t with
      | nil =>
        simp only [joinSep] at ih ⊢
        rw [ih]
      | cons x t' =>
        rw [joinSep_pair] at ih ⊢
        simp only [List.cons_append]
        rw [ih]

theorem splitOnChar_joinSep {sep : Char} {ls : List Str}
    (hmem : ∀ l ∈ ls, sep ∉ l) (hne : ls ≠ []) :
    splitOnChar sep (joinSep [sep] ls) = ls := by
  induction ls with
  | nil => exact absurd rfl hne
  | cons a ls ih =>
    cases ls with
    | nil =>
      simp only [joinSep]
      exact splitOnChar_of_not_mem (hmem a (List.mem_cons_self a []))
    | cons b l =>
      rw [joinSep_pair]
      have hshape : a ++ [sep] ++ joinSep [sep] (b :: l) =
          a ++ sep :: joinSep [sep] (b :: l) := by simp
      rw [hshape, splitOnChar_append,
        splitOnChar_of_not_mem (hmem a (List.mem_cons_self a _)),
        ih (fun x hx => hmem x (List.mem_cons_of_mem a hx)) (by simp)]
      rfl

theorem mem_joinSep {c : Char} {sep : Str} {ls : List Str} (h : c ∈ joinSep sep ls) :
    c ∈ sep ∨ ∃ l ∈ ls, c ∈ l := by
  induction ls with
  | nil => cases h
  | cons a ls ih =>
    cases ls with
    | nil =>
      simp only [joinSep] at h
      exact Or.inr ⟨a, List.mem_cons_self a [], h⟩
    | cons b l =>
      rw [joinSep_pair] at h
      rcases List.mem_append.mp h with h1 | h2
      · rcases List.mem_append.mp h1 with h3 | h4
        · exact Or.inr ⟨a, List.mem_cons_self a _, h3⟩
        · exact Or.inl h4
      · rcases ih h2 with h5 | ⟨l', hl', hcl'⟩
        · exact Or.inl h5
        · exact Or.inr ⟨l', List.mem_cons_of_mem a hl', hcl'⟩

/-! ## Lemmas about first-seen-order deduplication (`new Set`) -/

theorem not_mem_seen_of_mem_dedupFSAux {y : Str} :
    ∀ {l seen : List Str}, y ∈ dedupFSAux seen l → y ∉ seen := by
  intro l
  induction l with
  | nil => intro seen h; cases h
  | cons x xs ih =>
    intro seen h
    unfold dedupFSAux at h
    by_cases hx : x ∈ seen
    · simp only [hx, if_true] at h
      exact ih h
    · simp only [hx, if_false] at h
      rcases List.mem_cons.mp h with rfl | h2
      · exact hx
      · intro hseen
        exact ih h2 (List.mem_cons_of_mem x hseen)

theorem mem_dedupFSAux_iff {y : Str} :
    ∀ {l seen : List Str}, y ∈ dedupFSAux seen l ↔ (y ∈ l ∧ y ∉ seen) := by
  intro l
  induction l with
  | nil => intro seen; simp [dedupFSAux]
  | cons x xs ih =>
    intro seen
    unfold dedupFSAux
    by_cases hx : x ∈ seen
    · simp only [hx, if_true]
      rw [ih]
      constructor
      · rintro ⟨h1, h2⟩
        exact ⟨List.mem_cons_of_mem x h1, h2⟩
      · rintro ⟨h1, h2⟩
        rcases List.mem_cons.mp h1 with rfl | h3
        · exact absurd hx h2
        · exact ⟨h3, h2⟩
    · simp only [hx, if_false]
      constructor
      · intro h
        rcases List.mem_cons.mp h with rfl | h2
        · exact ⟨List.mem_cons_self y xs, hx⟩
        · have := ih.mp h2
          exact ⟨List.mem_cons_of_mem x this.1,
            fun hseen => this.2 (List.mem_cons_of_mem x hseen)⟩
      · rintro ⟨h1, h2⟩
        rcases List.mem_cons.mp h1 with rfl | h3
        · exact List.mem_cons_self y _
        · by_cases hyx : y = x
          · exact hyx ▸ List.mem_cons_self x _
          · exact List.mem_cons_of_mem x (ih.mpr ⟨h3, by simp [hyx, h2]⟩)

theorem dedupFSAux_congr :
    ∀ {l s₁ s₂ : List Str}, (∀ y, y ∈ s₁ ↔ y ∈ s₂) → dedupFSAux s₁ l = dedupFSAux s₂ l := by
  intro l
  induction l with
  | nil => intro s₁ s₂ _; rfl
  | cons x xs ih =>
    intro s₁ s₂ h
    unfold dedupFSAux
    by_cases hx : x ∈ s₁
    · simp only [hx, (h x).mp hx, if_true]
      exact ih h
    · have hx2 : x ∉ s₂ := fun h2 => hx ((h x).mpr h2)
      simp only [hx, hx2, if_false]
      rw [@ih (x :: s₁) (x :: s₂) (fun y => by simp [h y])]

theorem dedupFSAux_cons (seen : List Str) (x : Str) (xs : List Str) :
    dedupFSAux seen (x :: xs) =
      if x ∈ seen then dedupFSAux seen xs else x :: dedupFSAux (x :: seen) xs := rfl

theorem dedupFSAux_append :
    ∀ (a : List Str) {s : List Str} (b : List Str),
      dedupFSAux s (a ++ b) = dedupFSAux s a ++ dedupFSAux (a ++ s) b := by
  intro a
  induction a with
  | nil => intro s b; rfl
  | cons x a ih =>
    intro s b
    simp only [List.cons_append, dedupFSAux_cons]
    by_cases hx : x ∈ s
    · rw [if_pos hx, if_pos hx, ih b]
      have hcg : dedupFSAux (a ++ s) b = dedupFSAux (x :: (a ++ s)) b := by
        apply dedupFSAux_congr
        intro y
        simp only [List.cons_append, List.mem_cons]
        constructor
        · exact fun h => Or.inr h
        · rintro (rfl | h)
          · exact List.mem_append_right a hx
          · exact h
      rw [← hcg]
    · rw [if_neg hx, if_neg hx, ih b]
      have hcg : dedupFSAux (a ++ x :: s) b = dedupFSAux (x :: (a ++ s)) b := by
        apply dedupFSAux_congr
        intro y
        simp only [List.cons_append, List.mem_cons, List.mem_append]
        tauto
      rw [hcg]
      simp

theorem dedupFSAux_eq_filter :
    ∀ (l : List Str) {s t : List Str}, (∀ y ∈ t, y ∈ s) →
      dedupFSAux s l = (dedupFSAux t l).filter (fun y => decide (¬ y ∈ s)) := by
  intro l
  induction l with
  | nil => intro s t _; rfl
  | cons x xs ih =>
    intro s t hts
    rw [dedupFSAux_cons, dedupFSAux_cons]
    by_cases hxt : x ∈ t
    · rw [if_pos hxt, if_pos (hts x hxt)]
      exact ih hts
    · rw [if_neg hxt]
      by_cases hxs : x ∈ s
      · rw [if_pos hxs, List.filter_cons]
        have hdec : (decide (¬ x ∈ s)) = false := by simp [hxs]
        simp only [hdec, Bool.false_eq_true, if_false]
        exact ih (fun y hy => by
          rcases List.mem_cons.mp hy with rfl | h2
          · exact hxs
          · exact hts y h2)
      · rw [if_neg hxs, List.filter_cons]
        have hdec : (decide (¬ x ∈ s)) = true := by simp [hxs]
        simp only [hdec, if_true]
        have hsub : ∀ y ∈ x :: t, y ∈ x :: s := by
          intro y hy
          rcases List.mem_cons.mp hy with rfl | h2
          · exact List.mem_cons_self y _
          · exact List.mem_cons_of_mem x (hts y h2)
        rw [ih hsub]
        refine congrArg _ (List.filter_congr ?_)
        intro y hy
        have hyx : y ≠ x := by
          have := not_mem_seen_of_mem_dedupFSAux hy
          intro h
          exact this (h ▸ List.mem_cons_self x t)
        simp [List.mem_cons, hyx]

theorem dedupFS_append (a b : List Str) :
    dedupFS (a ++ b) = dedupFS a ++ (dedupFS b).filter (fun y => decide (¬ y ∈ a)) := by
  unfold dedupFS
  rw [dedupFSAux_append a b]
  simp only [List.append_nil]
  congr 1
  exact dedupFSAux_eq_filter b (fun y hy => absurd hy (List.not_mem_nil y))

theorem mem_dedupFS {y : Str} {l : List Str} : y ∈ dedupFS l ↔ y ∈ l := by
  unfold dedupFS
  rw [mem_dedupFSAux_iff]
  simp

theorem dedupFS_eq_nil_iff {l : List Str} : dedupFS l = [] ↔ l = [] := by
  cases l with
  | nil => simp [dedupFS, dedupFSAux]
  | cons x xs =>
    simp only [dedupFS, dedupFSAux, List.not_mem_nil, if_false]
    constructor
    · intro h; cases h
    · intro h; cases h

theorem dedupFS_append_singleton {l : List Str} {x : Str} (h : x ∉ l) :
    dedupFS (l ++ [x]) = dedupFS l ++ [x] := by
  rw [dedupFS_append]
  have : dedupFS [x] = [x] := rfl
  rw [this]
  simp [h]

theorem filter_ne_eq_self {l : List Str} {x : Str} (h : x ∉ l) :
    l.filter (fun id => decide (¬ id = x)) = l := by
  refine List.filter_eq_self.mpr ?_
  intro y hy
  simp only [decide_eq_true_eq]
  intro hyx
  exact h (hyx ▸ hy)

/-! ## Well-formedness predicates for parser-shaped records -/

/-- A content line as the parser stores it: trimmed, non-blank, not a header. -/
abbrev LineWf (l : Str) : Prop :=
  trim l = l ∧ l ≠ [] ∧ l ≠ criticalHeader ∧ l ≠ relatedHeader

/-- Content in parser-normal form: every line is a well-formed stored line. -/
abbrev ContentWf : Option Str → Prop
  | none => True
  | some s => ∀ l ∈ splitOnChar '\n' s, LineWf l

/-- Critical in parser-normal form: a single trimmed non-blank non-header line. -/
abbrev CriticalWf : Option Str → Prop
  | none => True
  | some k => trim k = k ∧ k ≠ [] ∧ k ≠ criticalHeader ∧ k ≠ relatedHeader ∧ '\n' ∉ k

/-- A link token as the parser produces it: trimmed, non-empty, and free of
commas and newlines. -/
abbrev TokenWf (x : Str) : Prop := trim x = x ∧ x ≠ [] ∧ ',' ∉ x ∧ '\n' ∉ x

/-- A string whose first and last characters are not whitespace (so `trim`
fixes it), and which is non-empty. -/
abbrev TightStr (s : Str) : Prop :=
  s ≠ [] ∧ startsNonWsB s = true ∧ startsNonWsB s.reverse = true

theorem startsNonWsB_of_trim_eq {s : Str} (h : trim s = s) : startsNonWsB s = true :=
  h ▸ startsNonWsB_trim s

theorem startsNonWsB_reverse_of_trim_eq {s : Str} (h : trim s = s) :
    startsNonWsB s.reverse = true :=
  h ▸ startsNonWsB_trim_reverse s

theorem tight_of_trim_eq {s : Str} (h : trim s = s) (hne : s ≠ []) : TightStr s :=
  ⟨hne, startsNonWsB_of_trim_eq h, startsNonWsB_reverse_of_trim_eq h⟩

theorem trim_eq_self_of_tight {s : Str} (h : TightStr s) : trim s = s :=
  trim_eq_self h.2.1 h.2.2

theorem tight_append {a b : Str} (mid : Str) (ha : TightStr a) (hb : TightStr b) :
    TightStr (a ++ mid ++ b) := by
  obtain ⟨hane, ha1, _⟩ := ha
  obtain ⟨hbne, _, hb2⟩ := hb
  refine ⟨by simp [hane], ?_, ?_⟩
  · rw [List.append_assoc, startsNonWsB_append _ hane]
    exact ha1
  · rw [List.reverse_append, List.reverse_append,
      startsNonWsB_append _ (by simp [hbne])]
    exact hb2

theorem tight_joinSep (sep : Str) :
    ∀ (parts : List Str), parts ≠ [] → (∀ p ∈ parts, TightStr p) →
      TightStr (joinSep sep parts) := by
  intro parts
  induction parts with
  | nil => intro h _; exact absurd rfl h
  | cons p ps ih =>
    intro _ hall
    cases ps with
    | nil => exact hall p (List.mem_cons_self p [])
    | cons q ps' =>
      rw [joinSep_pair]
      exact tight_append sep (hall p (List.mem_cons_self p _))
        (ih (by simp) (fun x hx => hall x (List.mem_cons_of_mem p hx)))

/-! ## Step lemmas for the `parseNotes` state machine -/

theorem parseStep_blank {st : PState} {l : Str} (h : trim l = []) : parseStep st l = st := by
  simp only [parseStep]
  rw [h, if_neg (by decide : ¬(([] : Str) = criticalHeader)),
    if_neg (by decide : ¬(([] : Str) = relatedHeader))]
  simp

theorem parseStep_critHeader (st : PState) {l : Str} (h : trim l = criticalHeader) :
    parseStep st l = { st with sec := ParseSection.critical } := by
  simp only [parseStep]
  rw [h, if_pos rfl]

theorem parseStep_relHeader (st : PState) {l : Str} (h : trim l = relatedHeader) :
    parseStep st l = { st with sec := ParseSection.related } := by
  simp only [parseStep]
  rw [h, if_neg (by decide : ¬(relatedHeader = criticalHeader)), if_pos rfl]

theorem parseStep_contentLine (comps : NoteComponents) (cls : List Str) {l : Str}
    (hnc : trim l ≠ criticalHeader) (hnr : trim l ≠ relatedHeader) (hnb : trim l ≠ []) :
    parseStep ⟨comps, cls, ParseSection.content⟩ l =
      ⟨comps, cls ++ [trim l], ParseSection.content⟩ := by
  simp only [parseStep]
  rw [if_neg hnc, if_neg hnr, if_neg (by simp [hnb])]

theorem parseStep_criticalLine (comps : NoteComponents) (cls : List Str) {l : Str}
    (hnc : trim l ≠ criticalHeader) (hnr : trim l ≠ relatedHeader) (hnb : trim l ≠ []) :
    parseStep ⟨comps, cls, ParseSection.critical⟩ l =
      ⟨{ comps with critical := some (trim l) }, cls, ParseSection.content⟩ := by
  simp only [parseStep]
  rw [if_neg hnc, if_neg hnr, if_neg (by simp [hnb])]

theorem parseStep_relatedLine (comps : NoteComponents) (cls : List Str) {l : Str}
    (hnc : trim l ≠ criticalHeader) (hnr : trim l ≠ relatedHeader) (hnb : trim l ≠ []) :
    parseStep ⟨comps, cls, ParseSection.related⟩ l =
      ⟨{ comps with
          links := some (((splitOnChar ',' (trim l)).map trim).filter (fun x => !x.isEmpty)) },
        cls, ParseSection.content⟩ := by
  simp only [parseStep]
  rw [if_neg hnc, if_neg hnr, if_neg (by simp [hnb])]

theorem foldl_contentLines (comps : NoteComponents) :
    ∀ (ls : List Str) (cls : List Str), (∀ l ∈ ls, LineWf l) →
      ls.foldl parseStep ⟨comps, cls, ParseSection.content⟩ =
        ⟨comps, cls ++ ls, ParseSection.content⟩ := by
  intro ls
  induction ls with
  | nil => intro cls _; simp
  | cons l ls ih =>
    intro cls hwf
    obtain ⟨ht, hne, hnc, hnr⟩ := hwf l (List.mem_cons_self l ls)
    have hnc' : trim l ≠ criticalHeader := by rw [ht]; exact hnc
    have hnr' : trim l ≠ relatedHeader := by rw [ht]; exact hnr
    have hne' : trim l ≠ [] := by rw [ht]; exact hne
    rw [List.foldl_cons, parseStep_contentLine comps cls hnc' hnr' hne', ht,
      ih (cls ++ [l]) (fun x hx => hwf x (List.mem_cons_of_mem l hx))]
    simp

/-! ## Recovering link tokens from the `Related:` line -/

theorem trim_cons_ws {c : Char} {t : Str} (h : isWs c = true) : trim (c :: t) = trim t := by
  unfold trim
  congr 1
  simp [trimLeft, h]

theorem splitOnChar_comma_joinSep :
    ∀ (rest : List Str) (x : Str), ',' ∉ x → (∀ t ∈ rest, ',' ∉ t) →
      splitOnChar ',' (joinSep (',' :: ' ' :: []) (x :: rest)) =
        x :: rest.map (fun t => ' ' :: t) := by
  intro rest
  induction rest with
  | nil =>
    intro x hx _
    simp only [joinSep, List.map_nil]
    exact splitOnChar_of_not_mem hx
  | cons y rest ih =>
    intro x hx hall
    rw [joinSep_pair]
    have hshape : x ++ (',' :: ' ' :: []) ++ joinSep (',' :: ' ' :: []) (y :: rest) =
        x ++ ',' :: (' ' :: joinSep (',' :: ' ' :: []) (y :: rest)) := by simp
    rw [hshape, splitOnChar_append, splitOnChar_of_not_mem hx, splitOnChar_cons,
      ih y (hall y (List.mem_cons_self y rest)) (fun t ht => hall t (List.mem_cons_of_mem y ht))]
    show [x] ++ (if ' ' = ',' then [] :: y :: List.map (fun t => ' ' :: t) rest
      else (' ' :: y) :: List.map (fun t => ' ' :: t) rest) =
      x :: List.map (fun t => ' ' :: t) (y :: rest)
    rw [if_neg (by decide : ¬(' ' = ','))]
    simp

theorem tokens_roundtrip {l : List Str} (hl : l ≠ []) (hw : ∀ x ∈ l, TokenWf x) :
    ((splitOnChar ',' (joinSep (',' :: ' ' :: []) l)).map trim).filter
      (fun x => !x.isEmpty) = l := by
  cases l with
  | nil => exact absurd rfl hl
  | cons x rest =>
    rw [splitOnChar_comma_joinSep rest x (hw x (List.mem_cons_self x rest)).2.2.1
      (fun t ht => (hw t (List.mem_cons_of_mem x ht)).2.2.1)]
    rw [List.map_cons, List.map_map, (hw x (List.mem_cons_self x rest)).1]
    have hmap : rest.map (trim ∘ fun t => ' ' :: t) = rest.map id := by
      refine List.map_congr_left ?_
      intro t ht
      simp only [Function.comp_apply, id_eq]
      rw [trim_cons_ws (by decide)]
      exact (hw t (List.mem_cons_of_mem x ht)).1
    rw [hmap, List.map_id]
    refine List.filter_eq_self.mpr ?_
    intro a ha
    have : a ≠ [] := by
      rcases List.mem_cons.mp ha with rfl | h2
      · exact (hw a (List.mem_cons_self a rest)).2.1
      · exact (hw a (List.mem_cons_of_mem x h2)).2.1
    simp [this]

theorem nl_not_mem_joinSep_comma {l : List Str} (hw : ∀ x ∈ l, '\n' ∉ x) :
    '\n' ∉ joinSep (',' :: ' ' :: []) l := by
  intro h
  rcases mem_joinSep h with hsep | ⟨t, ht, hmem⟩
  · rcases List.mem_cons.mp hsep with h1 | h2
    · cases h1
    · rcases List.mem_cons.mp h2 with h3 | h4
      · cases h3
      · cases h4
  · exact hw t ht hmem

theorem tight_joinSep_comma {l : List Str} (hl : l ≠ []) (hw : ∀ x ∈ l, TokenWf x) :
    TightStr (joinSep (',' :: ' ' :: []) l) :=
  tight_joinSep _ l hl (fun x hx => tight_of_trim_eq (hw x hx).1 (hw x hx).2.1)

theorem tight_content {s : Str} (h : ∀ l ∈ splitOnChar '\n' s, LineWf l) : TightStr s := by
  have hrep : joinSep ['\n'] (splitOnChar '\n' s) = s := joinSep_splitOnChar '\n' s
  rw [← hrep]
  obtain ⟨hd, tl, hht⟩ := exists_splitOnChar_cons '\n' s
  exact tight_joinSep _ _ (by rw [hht]; simp)
    (fun p hp => tight_of_trim_eq (h p hp).1 (h p hp).2.1)

/-! ## Reparsing a formatted record -/

/-- Links hypothesis for the reparse theorem: either absent, or a non-empty
list of well-formed tokens. -/
abbrev LinksWf : Option (List Str) → Prop
  | none => True
  | some l => l ≠ [] ∧ ∀ x ∈ l, TokenWf x

/-- The links field reconstructed by reparsing formatted text: a links line
that is itself a header line is consumed as a header, so nothing is captured. -/
def reparsedLinks : Option (List Str) → Option (List Str)
  | none => none
  | some l =>
      if joinSep (',' :: ' ' :: []) l = criticalHeader ∨
          joinSep (',' :: ' ' :: []) l = relatedHeader then none
      else some l

theorem reparsedLinks_some (l : List Str) :
    reparsedLinks (some l) =
      if joinSep (',' :: ' ' :: []) l = criticalHeader ∨
          joinSep (',' :: ' ' :: []) l = relatedHeader then none
      else some l := rfl

theorem content_ne_nil {s : Str} (h : ∀ l ∈ splitOnChar '\n' s, LineWf l) : s ≠ [] := by
  intro hnil
  subst hnil
  exact (h [] (by decide)).2.1 rfl

theorem trim_criticalHeader_eq : trim criticalHeader = criticalHeader := by decide

theorem trim_relatedHeader_eq : trim relatedHeader = relatedHeader := by decide

theorem nl_not_mem_criticalHeader : '\n' ∉ criticalHeader := by decide

theorem nl_not_mem_relatedHeader : '\n' ∉ relatedHeader := by decide

theorem tight_criticalHeader : TightStr criticalHeader := by
  refine ⟨by decide, by decide, by decide⟩

theorem tight_relatedHeader : TightStr relatedHeader := by
  refine ⟨by decide, by decide, by decide⟩

theorem split_nl_cons (X : Str) : splitOnChar '\n' ('\n' :: X) = [] :: splitOnChar '\n' X := by
  rw [splitOnChar_cons]
  obtain ⟨h, t, hht⟩ := exists_splitOnChar_cons '\n' X
  rw [hht]
  unfold splitStep
  simp

theorem split_line_block {hdr : Str} (X : Str) (hh : '\n' ∉ hdr) :
    splitOnChar '\n' (hdr ++ '\n' :: X) = hdr :: splitOnChar '\n' X := by
  rw [splitOnChar_append, splitOnChar_of_not_mem hh]
  rfl

theorem set_links_none_eq {comps : NoteComponents} (h : comps.links = none) :
    { comps with links := none } = comps := by
  cases comps
  simp only at h
  simp [h]

theorem parseStep_critHeader2 (comps : NoteComponents) (cls : List Str) (sec : ParseSection)
    {l : Str} (h : trim l = criticalHeader) :
    parseStep ⟨comps, cls, sec⟩ l = ⟨comps, cls, ParseSection.critical⟩ := by
  simp only [parseStep]
  rw [h, if_pos rfl]

theorem parseStep_relHeader2 (comps : NoteComponents) (cls : List Str) (sec : ParseSection)
    {l : Str} (h : trim l = relatedHeader) :
    parseStep ⟨comps, cls, sec⟩ l = ⟨comps, cls, ParseSection.related⟩ := by
  simp only [parseStep]
  rw [h, if_neg (by decide : ¬(relatedHeader = criticalHeader)), if_pos rfl]

theorem foldl_critBlock (comps : NoteComponents) (cls : List Str) {k : Str}
    (ht : trim k = k) (hne : k ≠ []) (hnc : k ≠ criticalHeader) (hnr : k ≠ relatedHeader) :
    ([criticalHeader, k] : List Str).foldl parseStep ⟨comps, cls, ParseSection.content⟩ =
      ⟨{ comps with critical := some k }, cls, ParseSection.content⟩ := by
  rw [List.foldl_cons, parseStep_critHeader2 comps cls _ trim_criticalHeader_eq,
    List.foldl_cons, List.foldl_nil,
    parseStep_criticalLine comps cls (by rw [ht]; exact hnc) (by rw [ht]; exact hnr)
      (by rw [ht]; exact hne), ht]

theorem foldl_relBlock (comps : NoteComponents) (cls : List Str) {l : List Str}
    (hnone : comps.links = none) (hl : l ≠ []) (hw : ∀ x ∈ l, TokenWf x) :
    ∃ sec, ([relatedHeader, joinSep (',' :: ' ' :: []) l] : List Str).foldl parseStep
        ⟨comps, cls, ParseSection.content⟩ =
      ⟨{ comps with links := reparsedLinks (some l) }, cls, sec⟩ := by
  have htL : trim (joinSep (',' :: ' ' :: []) l) = joinSep (',' :: ' ' :: []) l :=
    trim_eq_self_of_tight (tight_joinSep_comma hl hw)
  rw [List.foldl_cons, parseStep_relHeader2 comps cls _ trim_relatedHeader_eq,
    List.foldl_cons, List.foldl_nil]
  by_cases hcrit : joinSep (',' :: ' ' :: []) l = criticalHeader
  · refine ⟨ParseSection.critical, ?_⟩
    rw [parseStep_critHeader2 comps cls _ (htL.trans hcrit)]
    rw [show reparsedLinks (some l) = none from by simp [reparsedLinks, hcrit]]
    rw [set_links_none_eq hnone]
  · by_cases hrel : joinSep (',' :: ' ' :: []) l = relatedHeader
    · refine ⟨ParseSection.related, ?_⟩
      rw [parseStep_relHeader2 comps cls _ (htL.trans hrel)]
      rw [show reparsedLinks (some l) = none from by simp [reparsedLinks, hrel]]
      rw [set_links_none_eq hnone]
    · refine ⟨ParseSection.content, ?_⟩
      rw [parseStep_relatedLine comps cls (by rw [htL]; exact hcrit) (by rw [htL]; exact hrel)
        (by rw [htL]; exact (tight_joinSep_comma hl hw).1), htL, tokens_roundtrip hl hw]
      rw [show reparsedLinks (some l) = some l from by simp [reparsedLinks, hcrit, hrel]]

theorem parseStep_nil (st : PState) : parseStep st [] = st := parseStep_blank rfl

theorem tight_hdr_block {hdr body : Str} (hh : TightStr hdr) (hb : TightStr body) :
    TightStr (hdr ++ '\n' :: body) := by
  have h := tight_append ['\n'] hh hb
  have hshape : hdr ++ ['\n'] ++ body = hdr ++ '\n' :: body := by simp
  rwa [hshape] at h

/-- Reparsing the formatted text of a parser-shaped record recovers the
record, except that a links list whose joined line is itself a header line is
lost (consumed as a header, captured by nothing). -/
theorem parse_format_wf :
    ∀ (c : NoteComponents), ContentWf c.content → CriticalWf c.critical → LinksWf c.links →
      parseNotes (some (formatNotes c)) = ⟨c.content, c.critical, reparsedLinks c.links⟩ := by
  rintro ⟨co, kk, li⟩ hc hk hl
  cases co with
  | none =>
    cases kk with
    | none =>
      cases li with
      | none => decide
      | some l =>
        obtain ⟨hlne, hlw⟩ := hl
        have hLt : TightStr (joinSep (',' :: ' ' :: []) l) := tight_joinSep_comma hlne hlw
        have hLnl : '\n' ∉ joinSep (',' :: ' ' :: []) l :=
          nl_not_mem_joinSep_comma (fun x hx => (hlw x hx).2.2.2)
        have hle : l.isEmpty = false := by simp [hlne]
        have hfmt : formatNotes ⟨none, none, some l⟩ =
            trim (relatedHeader ++ '\n' :: joinSep (',' :: ' ' :: []) l) := by
          simp [formatNotes, optTruthy, linksTruthy, hle, joinSep]
        have htight : TightStr (relatedHeader ++ '\n' :: joinSep (',' :: ' ' :: []) l) :=
          tight_hdr_block tight_relatedHeader hLt
        rw [hfmt, trim_eq_self_of_tight htight]
        simp only [parseNotes]
        rw [if_neg (by simp [htight.1] :
          ¬((relatedHeader ++ '\n' :: joinSep (',' :: ' ' :: []) l).isEmpty = true))]
        rw [split_line_block _ nl_not_mem_relatedHeader, splitOnChar_of_not_mem hLnl]
        obtain ⟨sec, hrel⟩ := foldl_relBlock ⟨none, none, none⟩ [] rfl hlne hlw
        rw [hrel]
        rfl
    | some k =>
      obtain ⟨htk, hkne, hknc, hknr, hknl⟩ := hk
      have hke : k.isEmpty = false := by simp [hkne]
      have hktight : TightStr k := tight_of_trim_eq htk hkne
      cases li with
      | none =>
        have hfmt : formatNotes ⟨none, some k, none⟩ =
            trim (criticalHeader ++ '\n' :: k) := by
          simp [formatNotes, optTruthy, linksTruthy, hke, joinSep]
        have htight : TightStr (criticalHeader ++ '\n' :: k) :=
          tight_hdr_block tight_criticalHeader hktight
        rw [hfmt, trim_eq_self_of_tight htight]
        simp only [parseNotes]
        rw [if_neg (by simp [htight.1] : ¬((criticalHeader ++ '\n' :: k).isEmpty = true))]
        rw [split_line_block _ nl_not_mem_criticalHeader, splitOnChar_of_not_mem hknl]
        rw [foldl_critBlock _ _ htk hkne hknc hknr]
        rfl
      | some l =>
        obtain ⟨hlne, hlw⟩ := hl
        have hLt : TightStr (joinSep (',' :: ' ' :: []) l) := tight_joinSep_comma hlne hlw
        have hLnl : '\n' ∉ joinSep (',' :: ' ' :: []) l :=
          nl_not_mem_joinSep_comma (fun x hx => (hlw x hx).2.2.2)
        have hle : l.isEmpty = false := by simp [hlne]
        have hfmt : formatNotes ⟨none, some k, some l⟩ =
            trim (criticalHeader ++ '\n' ::
              (k ++ '\n' :: ('\n' :: (relatedHeader ++ '\n' :: joinSep (',' :: ' ' :: []) l)))) := by
          simp [formatNotes, optTruthy, linksTruthy, hke, hle, joinSep, List.append_assoc]
        have htight : TightStr (criticalHeader ++ '\n' ::
            (k ++ '\n' :: ('\n' :: (relatedHeader ++ '\n' :: joinSep (',' :: ' ' :: []) l)))) := by
          have h := tight_append ('\n' :: '\n' :: [])
            (tight_hdr_block tight_criticalHeader hktight)
            (tight_hdr_block tight_relatedHeader hLt)
          have hshape : criticalHeader ++ '\n' :: k ++ ('\n' :: '\n' :: []) ++
              (relatedHeader ++ '\n' :: joinSep (',' :: ' ' :: []) l) =
              criticalHeader ++ '\n' ::
                (k ++ '\n' :: ('\n' :: (relatedHeader ++ '\n' :: joinSep (',' :: ' ' :: []) l))) := by
            simp [List.append_assoc]
          rwa [hshape] at h
        rw [hfmt, trim_eq_self_of_tight htight]
        simp only [parseNotes]
        rw [if_neg (by simp [htight.1] : ¬((criticalHeader ++ '\n' ::
          (k ++ '\n' :: ('\n' :: (relatedHeader ++ '\n' ::
            joinSep (',' :: ' ' :: []) l)))).isEmpty = true))]
        rw [split_line_block _ nl_not_mem_criticalHeader, split_line_block _ hknl,
          split_nl_cons, split_line_block _ nl_not_mem_relatedHeader,
          splitOnChar_of_not_mem hLnl]
        rw [show (criticalHeader :: k :: [] :: relatedHeader ::
            [joinSep (',' :: ' ' :: []) l] : List Str) =
          [criticalHeader, k] ++ [] :: relatedHeader ::
            [joinSep (',' :: ' ' :: []) l] from rfl]
        rw [List.foldl_append, foldl_critBlock _ _ htk hkne hknc hknr,
          List.foldl_cons, parseStep_nil]
        obtain ⟨sec, hrel⟩ := foldl_relBlock ⟨none, some k, none⟩ [] rfl hlne hlw
        rw [hrel]
        rfl
  | some s =>
    have hs : ∀ l2 ∈ splitOnChar '\n' s, LineWf l2 := hc
    have hsne : s ≠ [] := content_ne_nil hs
    have hse : s.isEmpty = false := by simp [hsne]
    have hstight : TightStr s := tight_content hs
    obtain ⟨h0, t0, hht⟩ := exists_splitOnChar_cons '\n' s
    have hcse : (splitOnChar '\n' s).isEmpty = false := by rw [hht]; rfl
    cases kk with
    | none =>
      cases li with
      | none =>
        have hfmt : formatNotes ⟨some s, none, none⟩ = trim s := by
          simp [formatNotes, optTruthy, linksTruthy, hse, joinSep]
        rw [hfmt, trim_eq_self_of_tight hstight]
        simp only [parseNotes]
        rw [if_neg (by simp [hsne] : ¬(s.isEmpty = true))]
        rw [foldl_contentLines _ _ _ hs]
        simp only [List.nil_append, hcse, Bool.false_eq_true, if_false]
        rw [joinSep_splitOnChar]
        rfl
      | some l =>
        obtain ⟨hlne, hlw⟩ := hl
        have hLt : TightStr (joinSep (',' :: ' ' :: []) l) := tight_joinSep_comma hlne hlw
        have hLnl : '\n' ∉ joinSep (',' :: ' ' :: []) l :=
          nl_not_mem_joinSep_comma (fun x hx => (hlw x hx).2.2.2)
        have hle : l.isEmpty = false := by simp [hlne]
        have hfmt : formatNotes ⟨some s, none, some l⟩ =
            trim (s ++ '\n' :: ('\n' ::
              (relatedHeader ++ '\n' :: joinSep (',' :: ' ' :: []) l))) := by
          simp [formatNotes, optTruthy, linksTruthy, hse, hle, joinSep, List.append_assoc]
        have htight : TightStr (s ++ '\n' :: ('\n' ::
            (relatedHeader ++ '\n' :: joinSep (',' :: ' ' :: []) l))) := by
          have h := tight_append ('\n' :: '\n' :: []) hstight
            (tight_hdr_block tight_relatedHeader hLt)
          have hshape : s ++ ('\n' :: '\n' :: []) ++
              (relatedHeader ++ '\n' :: joinSep (',' :: ' ' :: []) l) =
              s ++ '\n' :: ('\n' ::
                (relatedHeader ++ '\n' :: joinSep (',' :: ' ' :: []) l)) := by
            simp [List.append_assoc]
          rwa [hshape] at h
        rw [hfmt, trim_eq_self_of_tight htight]
        simp only [parseNotes]
        rw [if_neg (by simp [hsne] : ¬((s ++ '\n' :: ('\n' ::
          (relatedHeader ++ '\n' :: joinSep (',' :: ' ' :: []) l))).isEmpty = true))]
        rw [splitOnChar_append, split_nl_cons,
          split_line_block _ nl_not_mem_relatedHeader, splitOnChar_of_not_mem hLnl]
        rw [List.foldl_append, foldl_contentLines _ _ _ hs, List.nil_append,
          List.foldl_cons, parseStep_nil]
        obtain ⟨sec, hrel⟩ := foldl_relBlock ⟨none, none, none⟩ (splitOnChar '\n' s)
          rfl hlne hlw
        rw [hrel]
        simp only [hcse, Bool.false_eq_true, if_false]
        rw [joinSep_splitOnChar]
    | some k =>
      obtain ⟨htk, hkne, hknc, hknr, hknl⟩ := hk
      have hke : k.isEmpty = false := by simp [hkne]
      have hktight : TightStr k := tight_of_trim_eq htk hkne
      cases li with
      | none =>
        have hfmt : formatNotes ⟨some s, some k, none⟩ =
            trim (s ++ '\n' :: ('\n' :: (criticalHeader ++ '\n' :: k))) := by
          simp [formatNotes, optTruthy, linksTruthy, hse, hke, joinSep, List.append_assoc]
        have htight : TightStr (s ++ '\n' :: ('\n' :: (criticalHeader ++ '\n' :: k))) := by
          have h := tight_append ('\n' :: '\n' :: []) hstight
            (tight_hdr_block tight_criticalHeader hktight)
          have hshape : s ++ ('\n' :: '\n' :: []) ++ (criticalHeader ++ '\n' :: k) =
              s ++ '\n' :: ('\n' :: (criticalHeader ++ '\n' :: k)) := by
            simp [List.append_assoc]
          rwa [hshape] at h
        rw [hfmt, trim_eq_self_of_tight htight]
        simp only [parseNotes]
        rw [if_neg (by simp [hsne] :
          ¬((s ++ '\n' :: ('\n' :: (criticalHeader ++ '\n' :: k))).isEmpty = true))]
        rw [splitOnChar_append, split_nl_cons,
          split_line_block _ nl_not_mem_criticalHeader, splitOnChar_of_not_mem hknl]
        rw [List.foldl_append, foldl_contentLines _ _ _ hs, List.nil_append,
          List.foldl_cons, parseStep_nil, foldl_critBlock _ _ htk hkne hknc hknr]
        simp only [hcse, Bool.false_eq_true, if_false]
        rw [joinSep_splitOnChar]
        rfl
      | some l =>
        obtain ⟨hlne, hlw⟩ := hl
        have hLt : TightStr (joinSep (',' :: ' ' :: []) l) := tight_joinSep_comma hlne hlw
        have hLnl : '\n' ∉ joinSep (',' :: ' ' :: []) l :=
          nl_not_mem_joinSep_comma (fun x hx => (hlw x hx).2.2.2)
        have hle : l.isEmpty = false := by simp [hlne]
        have hfmt : formatNotes ⟨some s, some k, some l⟩ =
            trim (s ++ '\n' :: ('\n' :: (criticalHeader ++ '\n' ::
              (k ++ '\n' :: ('\n' :: (relatedHeader ++ '\n' ::
                joinSep (',' :: ' ' :: []) l)))))) := by
          simp [formatNotes, optTruthy, linksTruthy, hse, hke, hle, joinSep,
            List.append_assoc]
        have htight : TightStr (s ++ '\n' :: ('\n' :: (criticalHeader ++ '\n' ::
            (k ++ '\n' :: ('\n' :: (relatedHeader ++ '\n' ::
              joinSep (',' :: ' ' :: []) l)))))) := by
          have h := tight_append ('\n' :: '\n' :: []) hstight
            (tight_append ('\n' :: '\n' :: [])
              (tight_hdr_block tight_criticalHeader hktight)
              (tight_hdr_block tight_relatedHeader hLt))
          have hshape : s ++ ('\n' :: '\n' :: []) ++
              (criticalHeader ++ '\n' :: k ++ ('\n' :: '\n' :: []) ++
                (relatedHeader ++ '\n' :: joinSep (',' :: ' ' :: []) l)) =
              s ++ '\n' :: ('\n' :: (criticalHeader ++ '\n' ::
                (k ++ '\n' :: ('\n' :: (relatedHeader ++ '\n' ::
                  joinSep (',' :: ' ' :: []) l))))) := by
            simp [List.append_assoc]
          rwa [hshape] at h
        rw [hfmt, trim_eq_self_of_tight htight]
        simp only [parseNotes]
        rw [if_neg (by simp [hsne] : ¬((s ++ '\n' :: ('\n' :: (criticalHeader ++ '\n' ::
          (k ++ '\n' :: ('\n' :: (relatedHeader ++ '\n' ::
            joinSep (',' :: ' ' :: []) l)))))).isEmpty = true))]
        rw [splitOnChar_append, split_nl_cons,
          split_line_block _ nl_not_mem_criticalHeader, split_line_block _ hknl,
          split_nl_cons, split_line_block _ nl_not_mem_relatedHeader,
          splitOnChar_of_not_mem hLnl]
        rw [show (([] : Str) :: criticalHeader :: k :: [] :: relatedHeader ::
            [joinSep (',' :: ' ' :: []) l] : List Str) =
          [] :: ([criticalHeader, k] ++ [] :: relatedHeader ::
            [joinSep (',' :: ' ' :: []) l]) from rfl]
        rw [List.foldl_append, foldl_contentLines _ _ _ hs, List.nil_append,
          List.foldl_cons, parseStep_nil, List.foldl_append,
          foldl_critBlock _ _ htk hkne hknc hknr, List.foldl_cons, parseStep_nil]
        obtain ⟨sec, hrel⟩ := foldl_relBlock ⟨none, some k, none⟩ (splitOnChar '\n' s)
          rfl hlne hlw
        rw [hrel]
        simp only [hcse, Bool.false_eq_true, if_false]
        rw [joinSep_splitOnChar]

/-! ## Well-formedness of everything `parseNotes` produces -/

/-- Invariant maintained by the parser loop. -/
abbrev StWf (st : PState) : Prop :=
  st.comps.content = none ∧
  (∀ l ∈ st.contentLines, LineWf l ∧ '\n' ∉ l) ∧
  CriticalWf st.comps.critical ∧
  (∀ l, st.comps.links = some l → ∀ x ∈ l, TokenWf x)

theorem mem_joinSep_of_mem {c : Char} {sep : Str} {ls : List Str} {l : Str}
    (hl : l ∈ ls) (hc : c ∈ l) : c ∈ joinSep sep ls := by
  induction ls with
  | nil => cases hl
  | cons a as ih =>
    cases as with
    | nil =>
      rcases List.mem_cons.mp hl with rfl | h2
      · exact hc
      · cases h2
    | cons b bs =>
      rw [joinSep_pair]
      rcases List.mem_cons.mp hl with rfl | h2
      · exact List.mem_append_left _ (List.mem_append_left _ hc)
      · exact List.mem_append_right _ (ih h2)

theorem mem_of_mem_splitOnChar_part {c : Char} {sep : Char} {s p : Str}
    (hp : p ∈ splitOnChar sep s) (hc : c ∈ p) : c ∈ s := by
  have := @mem_joinSep_of_mem c [sep] (splitOnChar sep s) p hp hc
  rwa [joinSep_splitOnChar] at this

theorem parseStep_wf {st : PState} (hst : StWf st) {line : Str} (hnl : '\n' ∉ line) :
    StWf (parseStep st line) := by
  by_cases hcr : trim line = criticalHeader
  · rw [parseStep_critHeader st hcr]
    exact hst
  · by_cases hre : trim line = relatedHeader
    · rw [parseStep_relHeader st hre]
      exact hst
    · by_cases hbl : trim line = []
      · rw [parseStep_blank hbl]
        exact hst
      · obtain ⟨hco, hcls, hcrit, hlnk⟩ := hst
        have htt : trim (trim line) = trim line := trim_idem line
        have htnl : '\n' ∉ trim line := fun h => hnl (mem_of_mem_trim h)
        obtain ⟨comps, cls, sec⟩ := st
        cases sec with
        | content =>
          rw [parseStep_contentLine comps cls hcr hre hbl]
          refine ⟨hco, ?_, hcrit, hlnk⟩
          intro l hlm
          rcases List.mem_append.mp hlm with h1 | h2
          · exact hcls l h1
          · rw [List.mem_singleton] at h2
            subst h2
            exact ⟨⟨htt, hbl, hcr, hre⟩, htnl⟩
        | critical =>
          rw [parseStep_criticalLine comps cls hcr hre hbl]
          exact ⟨hco, hcls, ⟨htt, hbl, hcr, hre, htnl⟩, hlnk⟩
        | related =>
          rw [parseStep_relatedLine comps cls hcr hre hbl]
          refine ⟨hco, hcls, hcrit, ?_⟩
          intro l hl x hx
          simp only [Option.some.injEq] at hl
          subst hl
          rw [List.mem_filter] at hx
          obtain ⟨hx1, hx2⟩ := hx
          rw [List.mem_map] at hx1
          obtain ⟨y, hy1, hy2⟩ := hx1
          subst hy2
          refine ⟨trim_idem y, by simpa using hx2, ?_, ?_⟩
          · intro hcm
            exact not_mem_of_mem_splitOnChar y hy1 (mem_of_mem_trim hcm)
          · intro hcm
            exact htnl (mem_of_mem_splitOnChar_part hy1 (mem_of_mem_trim hcm))

theorem foldl_parseStep_wf :
    ∀ (lines : List Str) {st : PState}, (∀ l ∈ lines, '\n' ∉ l) → StWf st →
      StWf (lines.foldl parseStep st) := by
  intro lines
  induction lines with
  | nil => intro st _ hst; exact hst
  | cons l ls ih =>
    intro st hnl hst
    rw [List.foldl_cons]
    exact ih (fun x hx => hnl x (List.mem_cons_of_mem l hx))
      (parseStep_wf hst (hnl l (List.mem_cons_self l ls)))

/-- Everything `parseNotes` returns is parser-shaped: content is a join of
well-formed lines, critical is a single well-formed line, and every link token
is trimmed, non-empty, and free of commas and newlines. -/
theorem parseNotes_wf (notes : Option Str) :
    ContentWf (parseNotes notes).content ∧ CriticalWf (parseNotes notes).critical ∧
      (∀ l, (parseNotes notes).links = some l → ∀ x ∈ l, TokenWf x) := by
  match notes with
  | none => exact ⟨trivial, trivial, fun l h => by cases h⟩
  | some s =>
    simp only [parseNotes]
    by_cases hse : s.isEmpty = true
    · rw [if_pos hse]
      exact ⟨trivial, trivial, fun l h => by cases h⟩
    · rw [if_neg hse]
      have hwf : StWf ((splitOnChar '\n' s).foldl parseStep ⟨{}, [], ParseSection.content⟩) :=
        foldl_parseStep_wf (splitOnChar '\n' s)
          (fun l hl => not_mem_of_mem_splitOnChar l hl)
          ⟨rfl, fun l h => absurd h (List.not_mem_nil l), trivial, fun l h => nomatch h⟩
      obtain ⟨hco, hcls, hcrit, hlnk⟩ := hwf
      by_cases hemp : ((splitOnChar '\n' s).foldl parseStep
          ⟨{}, [], ParseSection.content⟩).contentLines.isEmpty = true
      · rw [if_pos hemp]
        refine ⟨?_, hcrit, hlnk⟩
        rw [hco]
        trivial
      · rw [if_neg hemp]
        refine ⟨?_, hcrit, hlnk⟩
        have hne : ((splitOnChar '\n' s).foldl parseStep
            ⟨{}, [], ParseSection.content⟩).contentLines ≠ [] := by
          intro h
          exact hemp (by simp [h])
        intro l hl
        rw [splitOnChar_joinSep (fun x hx => (hcls x hx).2) hne] at hl
        exact (hcls l hl).1

/-! ## Spec-side definitions for the merge claims -/

/-- The merged links as the spec describes them: existing entries first, in
their original order and deduplicated, then those updates entries not already
present, in their order. -/
def specMergedLinks (e u : List Str) : List Str :=
  dedupFS e ++ (dedupFS u).filter (fun x => decide (¬ x ∈ e))

/-- The merged content as amended: both sides are concatenated with a blank
line only when both are present and non-empty; otherwise a present updates
field (even an empty one) wins, and an absent updates field falls back to the
existing field. -/
def specMergedContent (ec uc : Option Str) : Option Str :=
  match ec, uc with
  | some e, some u => if e ≠ [] ∧ u ≠ [] then some (e ++ '\n' :: '\n' :: u) else some u
  | none, some u => some u
  | some e, none => some e
  | none, none => none

/-! ## Claim theorems -/

/-- Claim C4 (confirmed): for every pair (existing, updates), `mergeNotes`
produces links equal to the order-preserving deduplicated union of
existing.links followed by those updates.links entries not already present,
and the field is absent exactly when that union is empty. -/
theorem claim4_merge_links (existing updates : NoteComponents) :
    (mergeNotes existing updates).links =
      if specMergedLinks (existing.links.getD []) (updates.links.getD []) = [] then none
      else some (specMergedLinks (existing.links.getD []) (updates.links.getD [])) := by
  unfold mergeNotes specMergedLinks
  simp only
  rw [← dedupFS_append]
  by_cases h : existing.links.getD [] ++ updates.links.getD [] = []
  · rw [if_pos (by simp [h]), if_pos (dedupFS_eq_nil_iff.mpr h)]
  · rw [if_neg (by simp [h]), if_neg (fun hd => h (dedupFS_eq_nil_iff.mp hd))]

/-- Claim C3 (corrected): `mergeNotes` never returns a present-but-empty links
collection, and every individual link that `parseNotes` retains is non-empty;
but `parseNotes` itself can return a present empty links collection (see the
counterexample), so the invariant holds only for `mergeNotes`. -/
theorem claim3_links_invariant :
    (∀ (existing updates : NoteComponents) (l : List Str),
        (mergeNotes existing updates).links = some l → l ≠ []) ∧
      (∀ (notes : Option Str) (l : List Str),
        (parseNotes notes).links = some l → ∀ x ∈ l, x ≠ []) := by
  constructor
  · intro e u l h
    unfold mergeNotes at h
    simp only at h
    by_cases hal : (e.links.getD [] ++ u.links.getD []).isEmpty = true
    · rw [if_pos hal] at h
      cases h
    · rw [if_neg hal] at h
      injection h with h
      subst h
      intro hnil
      rw [dedupFS_eq_nil_iff] at hnil
      exact hal (by simp [hnil])
  · intro notes l h x hx
    exact ((parseNotes_wf notes).2.2 l h x hx).2.1

/-- Claim C3 counterexample: on input `"Related:\n,"` the parser captures the
line `","`, splits it into two empty tokens, filters both away, and stores a
present empty links collection — violating the invariant as stated. -/
theorem claim3_counterexample :
    (parseNotes (some ("Related:\n,".data))).links = some [] := by decide

/-- Claim C3 witness. -/
theorem claim3_witness :
    (mergeNotes ⟨none, none, some ["A".data]⟩ ⟨none, none, none⟩).links =
        some ["A".data] ∧
      ["A".data] ≠ ([] : List Str) :=
  ⟨by decide, claim3_links_invariant.1 ⟨none, none, some ["A".data]⟩ ⟨none, none, none⟩
    ["A".data] (by decide)⟩

/-- Claim C5 (corrected): merged content concatenates with a blank line only
when both sides are present AND non-empty (JavaScript truthiness); an updates
content field that is present — even as the empty string — otherwise wins over
the existing field. The claim's reading, under which an empty string counts as
present for the concatenation branch, is refuted by the counterexample. -/
theorem claim5_merge_content (existing updates : NoteComponents) :
    (mergeNotes existing updates).content =
      specMergedContent existing.content updates.content := by
  obtain ⟨ec, kc, lc⟩ := existing
  obtain ⟨uc, ku, lu⟩ := updates
  unfold mergeNotes specMergedContent
  simp only
  cases ec with
  | none =>
    cases uc with
    | none => rfl
    | some u => simp [optTruthy, Option.orElse]
  | some e =>
    cases uc with
    | none => rfl
    | some u =>
      by_cases he : e = []
      · subst he
        simp [optTruthy, Option.orElse]
      · by_cases hu : u = []
        · subst hu
          simp [optTruthy, Option.orElse]
        · have hee : e.isEmpty = false := by simp [he]
          have hue : u.isEmpty = false := by simp [hu]
          simp [optTruthy, hee, hue, he, hu]

/-- Claim C5 counterexample: with `existing.content` set to the empty string
and `updates.content` set to `"x"`, both fields are present, yet `mergeNotes`
returns `"x"` rather than the claimed blank-line concatenation `"\n\nx"`. -/
theorem claim5_counterexample :
    (mergeNotes ⟨some [], none, none⟩ ⟨some ('x' :: []), none, none⟩).content =
        some ('x' :: []) ∧
      some ('x' :: []) ≠ some ('\n' :: '\n' :: 'x' :: ([] : Str)) := by decide

/-- Claim C9 (confirmed): every content field `parseNotes` produces consists of
lines that are individually trimmed and non-blank; whitespace around lines and
blank lines are never preserved. -/
theorem claim9_content_lines (notes : Option Str) (c : Str)
    (h : (parseNotes notes).content = some c) :
    ∀ l ∈ splitOnChar '\n' c, trim l = l ∧ l ≠ [] := by
  have hwf := (parseNotes_wf notes).1
  rw [h] at hwf
  exact fun l hl => ⟨(hwf l hl).1, (hwf l hl).2.1⟩

/-- Claim C9 witness. -/
theorem claim9_witness :
    (parseNotes (some "  a  \n\nb".data)).content = some "a\nb".data ∧
      (trim "a".data = "a".data ∧ "a".data ≠ []) :=
  ⟨by decide, claim9_content_lines (some "  a  \n\nb".data) "a\nb".data (by decide)
    "a".data (by decide)⟩

/-- Claim C10 (confirmed): the parser recognizes section headers after
trimming the line — `parseStep` is invariant under trimming its line, and any
line whose trim equals a header triggers exactly the section transition. -/
theorem claim10_header_recognition :
    (∀ (st : PState) (l : Str), parseStep st l = parseStep st (trim l)) ∧
      (∀ (st : PState) (l : Str), trim l = criticalHeader →
        parseStep st l = { st with sec := ParseSection.critical }) ∧
      (∀ (st : PState) (l : Str), trim l = relatedHeader →
        parseStep st l = { st with sec := ParseSection.related }) := by
  refine ⟨?_, fun st l h => parseStep_critHeader st h,
    fun st l h => parseStep_relHeader st h⟩
  intro st l
  simp only [parseStep, trim_idem]

/-- Claim C10 witness: a padded header line acts exactly like the bare one. -/
theorem claim10_witness :
    trim "  Critical:  ".data = criticalHeader ∧
      parseStep ⟨{}, [], ParseSection.content⟩ "  Critical:  ".data =
        ⟨{}, [], ParseSection.critical⟩ :=
  ⟨by decide, claim10_header_recognition.2.1 ⟨{}, [], ParseSection.content⟩
    "  Critical:  ".data (by decide)⟩

/-! ## Claim C6: an unfollowed trailing header captures nothing -/

theorem foldl_blank_lines :
    ∀ (lines : List Str) (st : PState), (∀ x ∈ lines, trim x = []) →
      lines.foldl parseStep st = st := by
  intro lines
  induction lines with
  | nil => intro st _; rfl
  | cons l ls ih =>
    intro st h
    rw [List.foldl_cons, parseStep_blank (h l (List.mem_cons_self l ls))]
    exact ih st (fun x hx => h x (List.mem_cons_of_mem l hx))

theorem foldl_no_critical :
    ∀ (lines : List Str) (st : PState),
      (∀ x ∈ lines, trim x ≠ criticalHeader) → st.comps.critical = none →
      st.sec ≠ ParseSection.critical →
      ((lines.foldl parseStep st).comps.critical = none ∧
        (lines.foldl parseStep st).sec ≠ ParseSection.critical) := by
  intro lines
  induction lines with
  | nil => intro st _ h1 h2; exact ⟨h1, h2⟩
  | cons l ls ih =>
    intro st hn h1 h2
    rw [List.foldl_cons]
    have hstep : (parseStep st l).comps.critical = none ∧
        (parseStep st l).sec ≠ ParseSection.critical := by
      by_cases hcr : trim l = criticalHeader
      · exact absurd hcr (hn l (List.mem_cons_self l ls))
      · by_cases hre : trim l = relatedHeader
        · rw [parseStep_relHeader st hre]
          exact ⟨h1, fun h => ParseSection.noConfusion h⟩
        · by_cases hbl : trim l = []
          · rw [parseStep_blank hbl]
            exact ⟨h1, h2⟩
          · obtain ⟨comps, cls, sec⟩ := st
            cases sec with
            | content =>
              rw [parseStep_contentLine comps cls hcr hre hbl]
              exact ⟨h1, fun h => ParseSection.noConfusion h⟩
            | critical => exact absurd rfl h2
            | related =>
              rw [parseStep_relatedLine comps cls hcr hre hbl]
              exact ⟨h1, fun h => ParseSection.noConfusion h⟩
    exact ih _ (fun x hx => hn x (List.mem_cons_of_mem l hx)) hstep.1 hstep.2

theorem foldl_no_related :
    ∀ (lines : List Str) (st : PState),
      (∀ x ∈ lines, trim x ≠ relatedHeader) → st.comps.links = none →
      st.sec ≠ ParseSection.related →
      ((lines.foldl parseStep st).comps.links = none ∧
        (lines.foldl parseStep st).sec ≠ ParseSection.related) := by
  intro lines
  induction lines with
  | nil => intro st _ h1 h2; exact ⟨h1, h2⟩
  | cons l ls ih =>
    intro st hn h1 h2
    rw [List.foldl_cons]
    have hstep : (parseStep st l).comps.links = none ∧
        (parseStep st l).sec ≠ ParseSection.related := by
      by_cases hcr : trim l = criticalHeader
      · rw [parseStep_critHeader st hcr]
        exact ⟨h1, fun h => ParseSection.noConfusion h⟩
      · by_cases hre : trim l = relatedHeader
        · exact absurd hre (hn l (List.mem_cons_self l ls))
        · by_cases hbl : trim l = []
          · rw [parseStep_blank hbl]
            exact ⟨h1, h2⟩
          · obtain ⟨comps, cls, sec⟩ := st
            cases sec with
            | content =>
              rw [parseStep_contentLine comps cls hcr hre hbl]
              exact ⟨h1, fun h => ParseSection.noConfusion h⟩
            | critical =>
              rw [parseStep_criticalLine comps cls hcr hre hbl]
              exact ⟨h1, fun h => ParseSection.noConfusion h⟩
            | related => exact absurd rfl h2
    exact ih _ (fun x hx => hn x (List.mem_cons_of_mem l hx)) hstep.1 hstep.2

/-- Claim C6 (corrected): a `Critical:`/`Related:` header line followed by no
non-blank line before the end of the input captures nothing, so — provided no
earlier occurrence of the same header line appears in the input — the
corresponding field is absent.  (As literally stated, the claim fails when an
earlier occurrence of the same header did capture a value; see the
counterexample.) -/
theorem claim6_trailing_header :
    (∀ (s : Str) (a b : List Str) (h : Str),
      splitOnChar '\n' s = a ++ h :: b → trim h = criticalHeader →
      (∀ x ∈ b, trim x = []) → (∀ x ∈ a, trim x ≠ criticalHeader) →
      (parseNotes (some s)).critical = none) ∧
    (∀ (s : Str) (a b : List Str) (h : Str),
      splitOnChar '\n' s = a ++ h :: b → trim h = relatedHeader →
      (∀ x ∈ b, trim x = []) → (∀ x ∈ a, trim x ≠ relatedHeader) →
      (parseNotes (some s)).links = none) := by
  constructor
  · intro s a b h hsplit hh hb ha
    simp only [parseNotes]
    by_cases hse : s.isEmpty = true
    · rw [if_pos hse]
    · rw [if_neg hse, hsplit, List.foldl_append]
      obtain ⟨hcr, _⟩ := foldl_no_critical a ⟨{}, [], ParseSection.content⟩ ha rfl
        (fun hx => ParseSection.noConfusion hx)
      rw [List.foldl_cons,
        parseStep_critHeader (a.foldl parseStep ⟨{}, [], ParseSection.content⟩) hh,
        foldl_blank_lines b _ hb]
      by_cases hemp : ({ a.foldl parseStep ⟨{}, [], ParseSection.content⟩ with
          sec := ParseSection.critical } : PState).contentLines.isEmpty = true
      · rw [if_pos hemp]
        exact hcr
      · rw [if_neg hemp]
        exact hcr
  · intro s a b h hsplit hh hb ha
    simp only [parseNotes]
    by_cases hse : s.isEmpty = true
    · rw [if_pos hse]
    · rw [if_neg hse, hsplit, List.foldl_append]
      obtain ⟨hlk, _⟩ := foldl_no_related a ⟨{}, [], ParseSection.content⟩ ha rfl
        (fun hx => ParseSection.noConfusion hx)
      rw [List.foldl_cons,
        parseStep_relHeader (a.foldl parseStep ⟨{}, [], ParseSection.content⟩) hh,
        foldl_blank_lines b _ hb]
      by_cases hemp : ({ a.foldl parseStep ⟨{}, [], ParseSection.content⟩ with
          sec := ParseSection.related } : PState).contentLines.isEmpty = true
      · rw [if_pos hemp]
        exact hlk
      · rw [if_neg hemp]
        exact hlk

/-- Claim C6 counterexample: the input `"Critical:\nX\nCritical:"` contains a
`Critical:` header line (its last line) followed by no non-blank line, yet the
critical field is present, captured by the earlier occurrence. -/
theorem claim6_counterexample :
    splitOnChar '\n' "Critical:\nX\nCritical:".data =
        ["Critical:".data, "X".data, "Critical:".data] ∧
      trim "Critical:".data = criticalHeader ∧
      (parseNotes (some "Critical:\nX\nCritical:".data)).critical = some "X".data := by
  decide

/-- Claim C6 witness. -/
theorem claim6_witness :
    splitOnChar '\n' "x\nCritical:\n  ".data =
        ["x".data] ++ "Critical:".data :: ["  ".data] ∧
      (parseNotes (some "x\nCritical:\n  ".data)).critical = none ∧
      (parseNotes (some "x\nRelated:\n  ".data)).links = none :=
  ⟨by decide,
    claim6_trailing_header.1 "x\nCritical:\n  ".data ["x".data] ["  ".data]
      "Critical:".data (by decide) (by decide) (by decide) (by decide),
    claim6_trailing_header.2 "x\nRelated:\n  ".data ["x".data] ["  ".data]
      "Related:".data (by decide) (by decide) (by decide) (by decide)⟩

/-! ## Claims C1 and C2: round-trip -/

/-- A value contains no embedded header line. -/
abbrev NoHeaderLines (s : Str) : Prop :=
  ∀ l ∈ splitOnChar '\n' s, trim l ≠ criticalHeader ∧ trim l ≠ relatedHeader

/-- The round-trip hypothesis exactly as claim C1 states it: present fields
are non-empty and contain no embedded `Critical:`/`Related:` header line. -/
abbrev RoundTripHyp (c : NoteComponents) : Prop :=
  (match c.content with | none => True | some s => s ≠ [] ∧ NoHeaderLines s) ∧
  (match c.critical with | none => True | some k => k ≠ [] ∧ NoHeaderLines k) ∧
  (match c.links with
   | none => True
   | some ls => ls ≠ [] ∧ ∀ x ∈ ls, x ≠ [] ∧ NoHeaderLines x)

/-- Canonical form: content lines and the critical line are trimmed, non-blank
and not header lines; each link is trimmed, non-empty, comma- and newline-free
and not itself a header string. -/
abbrev Canonical (c : NoteComponents) : Prop :=
  ContentWf c.content ∧ CriticalWf c.critical ∧
  (match c.links with
   | none => True
   | some ls => ls ≠ [] ∧ ∀ x ∈ ls, TokenWf x ∧ x ≠ criticalHeader ∧ x ≠ relatedHeader)

theorem joinSep_comma_ne_headers {ls : List Str} (hne : ls ≠ [])
    (hh : ∀ x ∈ ls, x ≠ criticalHeader ∧ x ≠ relatedHeader) :
    joinSep (',' :: ' ' :: []) ls ≠ criticalHeader ∧
      joinSep (',' :: ' ' :: []) ls ≠ relatedHeader := by
  cases ls with
  | nil => exact absurd rfl hne
  | cons x rest =>
    cases rest with
    | nil => exact hh x (List.mem_cons_self x [])
    | cons y r =>
      have hcm : ',' ∈ joinSep (',' :: ' ' :: []) (x :: y :: r) := by
        rw [joinSep_pair]
        exact List.mem_append_left _ (List.mem_append_right _ (by simp))
      constructor
      · intro heq
        rw [heq] at hcm
        exact absurd hcm (by decide)
      · intro heq
        rw [heq] at hcm
        exact absurd hcm (by decide)

/-- The round-trip engine shared by claims C1 and C2: parsing the formatted
text of a canonical record recovers the record exactly. -/
theorem roundtrip_canonical (c : NoteComponents) (h : Canonical c) :
    parseNotes (some (formatNotes c)) = c := by
  obtain ⟨hc, hk, hl⟩ := h
  have hlw : LinksWf c.links := by
    cases hcl : c.links with
    | none => trivial
    | some ls =>
      rw [hcl] at hl
      exact ⟨hl.1, fun x hx => (hl.2 x hx).1⟩
  have hrep : reparsedLinks c.links = c.links := by
    cases hcl : c.links with
    | none => rfl
    | some ls =>
      rw [hcl] at hl
      obtain ⟨hlsne, hlsw⟩ := hl
      have hhd := joinSep_comma_ne_headers hlsne (fun x hx => (hlsw x hx).2)
      show (if joinSep (',' :: ' ' :: []) ls = criticalHeader ∨
          joinSep (',' :: ' ' :: []) ls = relatedHeader then none else some ls) = some ls
      rw [if_neg (by
        intro hor
        rcases hor with h1 | h2
        · exact hhd.1 h1
        · exact hhd.2 h2)]
  have := parse_format_wf c hc hk hlw
  rw [hrep] at this
  rw [this]

/-- Claim C1 (corrected): parsing the formatted text recovers the record for
records in canonical form — content lines and the critical line trimmed,
non-blank and not header lines, links trimmed, non-empty, comma- and
newline-free and not header strings.  The claim's weaker hypothesis (fields
non-empty, no embedded header lines) is not sufficient: parsing trims and
drops blank lines, so e.g. content `" a"` does not round-trip. -/
theorem claim1_roundtrip (c : NoteComponents) (h : Canonical c) :
    parseNotes (some (formatNotes c)) = c :=
  roundtrip_canonical c h

/-- Claim C1 counterexample: the record with content `" a"` satisfies the
claim's stated hypothesis (non-empty, no embedded header lines) but does not
round-trip — format trims the text, so parsing returns content `"a"`. -/
theorem claim1_counterexample :
    RoundTripHyp ⟨some (' ' :: 'a' :: []), none, none⟩ ∧
      parseNotes (some (formatNotes ⟨some (' ' :: 'a' :: []), none, none⟩)) ≠
        ⟨some (' ' :: 'a' :: []), none, none⟩ := by decide

/-- Claim C1 witness. -/
theorem claim1_witness :
    Canonical ⟨some "Check security issues".data, some "Blocking release".data,
        some ["ABC123".data, "DEF456".data]⟩ ∧
      parseNotes (some (formatNotes ⟨some "Check security issues".data,
          some "Blocking release".data, some ["ABC123".data, "DEF456".data]⟩)) =
        ⟨some "Check security issues".data, some "Blocking release".data,
          some ["ABC123".data, "DEF456".data]⟩ :=
  ⟨by decide, claim1_roundtrip _ (by decide)⟩

/-- Claim C2 (corrected): `format ∘ parse ∘ format` agrees with `format` on
canonical records; for arbitrary records it fails — e.g. content `"a\n\nb"`
formats to itself but reparses to `"a\nb"`, which formats differently. -/
theorem claim2_format_idem (c : NoteComponents) (h : Canonical c) :
    formatNotes (parseNotes (some (formatNotes c))) = formatNotes c := by
  rw [roundtrip_canonical c h]

/-- Claim C2 counterexample: for content `"a\n\nb"` the claimed identity
fails, because parsing collapses the blank line. -/
theorem claim2_counterexample :
    formatNotes (parseNotes (some (formatNotes ⟨some "a\n\nb".data, none, none⟩))) ≠
      formatNotes ⟨some "a\n\nb".data, none, none⟩ := by decide

/-- Claim C2 witness. -/
theorem claim2_witness :
    Canonical ⟨some "Hello".data, none, some ["ID1".data]⟩ ∧
      formatNotes (parseNotes (some (formatNotes
          ⟨some "Hello".data, none, some ["ID1".data]⟩))) =
        formatNotes ⟨some "Hello".data, none, some ["ID1".data]⟩ :=
  ⟨by decide, claim2_format_idem _ (by decide)⟩

/-! ## Claim C7: removeLink -/

theorem no_related_line_of_format (c : NoteComponents) (hc : ContentWf c.content)
    (hk : CriticalWf c.critical) (hln : c.links = none) :
    ∀ line ∈ splitOnChar '\n' (formatNotes c), trim line ≠ relatedHeader := by
  obtain ⟨co, kk, li⟩ := c
  simp only at hln
  subst hln
  cases co with
  | none =>
    cases kk with
    | none => decide
    | some k =>
      obtain ⟨htk, hkne, hknc, hknr, hknl⟩ := hk
      have hke : k.isEmpty = false := by simp [hkne]
      have hfmt : formatNotes ⟨none, some k, none⟩ = trim (criticalHeader ++ '\n' :: k) := by
        simp [formatNotes, optTruthy, linksTruthy, hke, joinSep]
      rw [hfmt, trim_eq_self_of_tight
        (tight_hdr_block tight_criticalHeader (tight_of_trim_eq htk hkne)),
        split_line_block _ nl_not_mem_criticalHeader, splitOnChar_of_not_mem hknl]
      intro line hline
      rcases List.mem_cons.mp hline with rfl | h2
      · rw [trim_criticalHeader_eq]
        decide
      · rw [List.mem_singleton] at h2
        subst h2
        rw [htk]
        exact hknr
  | some s =>
    have hs : ∀ l2 ∈ splitOnChar '\n' s, LineWf l2 := hc
    have hsne : s ≠ [] := content_ne_nil hs
    have hse : s.isEmpty = false := by simp [hsne]
    have hstight : TightStr s := tight_content hs
    cases kk with
    | none =>
      have hfmt : formatNotes ⟨some s, none, none⟩ = trim s := by
        simp [formatNotes, optTruthy, linksTruthy, hse, joinSep]
      rw [hfmt, trim_eq_self_of_tight hstight]
      intro line hline
      rw [(hs line hline).1]
      exact (hs line hline).2.2.2
    | some k =>
      obtain ⟨htk, hkne, hknc, hknr, hknl⟩ := hk
      have hke : k.isEmpty = false := by simp [hkne]
      have hfmt : formatNotes ⟨some s, some k, none⟩ =
          trim (s ++ '\n' :: ('\n' :: (criticalHeader ++ '\n' :: k))) := by
        simp [formatNotes, optTruthy, linksTruthy, hse, hke, joinSep, List.append_assoc]
      have htight : TightStr (s ++ '\n' :: ('\n' :: (criticalHeader ++ '\n' :: k))) := by
        have h := tight_append ('\n' :: '\n' :: []) hstight
          (tight_hdr_block tight_criticalHeader (tight_of_trim_eq htk hkne))
        have hshape : s ++ ('\n' :: '\n' :: []) ++ (criticalHeader ++ '\n' :: k) =
            s ++ '\n' :: ('\n' :: (criticalHeader ++ '\n' :: k)) := by
          simp [List.append_assoc]
        rwa [hshape] at h
      rw [hfmt, trim_eq_self_of_tight htight, splitOnChar_append, split_nl_cons,
        split_line_block _ nl_not_mem_criticalHeader, splitOnChar_of_not_mem hknl]
      intro line hline
      rcases List.mem_append.mp hline with h1 | h2
      · rw [(hs line h1).1]
        exact (hs line h1).2.2.2
      · rcases List.mem_cons.mp h2 with rfl | h3
        · decide
        · rcases List.mem_cons.mp h3 with rfl | h4
          · rw [trim_criticalHeader_eq]
            decide
          · rw [List.mem_singleton] at h4
            subst h4
            rw [htk]
            exact hknr

/-- Claim C7 (confirmed): `removeLink` removes the id from the parsed link set
of the result; when the filtered set is empty the links field is cleared, so
no line of the re-encoded output is a `Related:` header; and on the concrete
input `"Content\n\nRelated:\nABC"` removing `"ABC"` yields `"Content"`. -/
theorem claim7_removeLink :
    (∀ (notes : Option Str) (id : Str),
        id ∉ (parseNotes (some (removeLink notes id))).links.getD []) ∧
      (∀ (notes : Option Str) (id : Str),
        ((parseNotes notes).links.getD []).filter (fun x => decide (¬ x = id)) = [] →
        ∀ line ∈ splitOnChar '\n' (removeLink notes id), trim line ≠ relatedHeader) ∧
      removeLink (some "Content\n\nRelated:\nABC".data) "ABC".data = "Content".data := by
  refine ⟨?_, ?_, by decide⟩
  · intro notes id
    obtain ⟨hcw, hkw, hlw⟩ := parseNotes_wf notes
    simp only [removeLink]
    cases hcl : (parseNotes notes).links with
    | none =>
      simp only [Option.map_none']
      rw [if_neg (fun hx => Option.noConfusion hx)]
      rw [parse_format_wf
        ⟨(parseNotes notes).content, (parseNotes notes).critical, none⟩ hcw hkw trivial]
      simp [reparsedLinks]
    | some l =>
      simp only [Option.map_some']
      by_cases hfe : l.filter (fun x => decide (¬ x = id)) = []
      · rw [if_pos (by rw [hfe])]
        rw [parse_format_wf
          ⟨(parseNotes notes).content, (parseNotes notes).critical, none⟩ hcw hkw trivial]
        simp [reparsedLinks]
      · rw [if_neg (fun hx => hfe (Option.some.injEq _ _ ▸ hx))]
        have htw : ∀ x ∈ l.filter (fun x => decide (¬ x = id)), TokenWf x :=
          fun x hx => hlw l hcl x (List.mem_filter.mp hx).1
        rw [parse_format_wf ⟨(parseNotes notes).content, (parseNotes notes).critical,
          some (l.filter (fun x => decide (¬ x = id)))⟩ hcw hkw ⟨hfe, htw⟩]
        show id ∉ (reparsedLinks (some (l.filter (fun x => decide (¬ x = id))))).getD []
        rw [reparsedLinks_some]
        by_cases hdead : joinSep (',' :: ' ' :: []) (l.filter (fun x => decide (¬ x = id))) =
            criticalHeader ∨
          joinSep (',' :: ' ' :: []) (l.filter (fun x => decide (¬ x = id))) = relatedHeader
        · rw [if_pos hdead]
          simp
        · rw [if_neg hdead]
          intro hmem
          simp only [Option.getD_some] at hmem
          have := (List.mem_filter.mp hmem).2
          simp at this
  · intro notes id hflt
    obtain ⟨hcw, hkw, _⟩ := parseNotes_wf notes
    simp only [removeLink]
    cases hcl : (parseNotes notes).links with
    | none =>
      simp only [Option.map_none']
      rw [if_neg (fun hx => Option.noConfusion hx)]
      exact no_related_line_of_format _ hcw hkw rfl
    | some l =>
      rw [hcl] at hflt
      simp only [Option.getD_some] at hflt
      simp only [Option.map_some']
      rw [if_pos (by rw [hflt])]
      exact no_related_line_of_format _ hcw hkw rfl

/-- Claim C7 witness. -/
theorem claim7_witness :
    ((parseNotes (some "Content\n\nRelated:\nABC".data)).links.getD []).filter
        (fun x => decide (¬ x = "ABC".data)) = [] ∧
      trim "Content".data ≠ relatedHeader :=
  ⟨by decide, claim7_removeLink.2.1 (some "Content\n\nRelated:\nABC".data) "ABC".data
    (by decide) "Content".data (by decide)⟩

/-! ## Claim C8: addLink/removeLink inverse -/

/-- Claim C8 (corrected): `removeLink(addLink(text, id), id)` restores the
original link set — observed through `parseNotes`, with content and critical
untouched — provided `id` is a well-formed token (trimmed, non-empty, free of
commas and newlines), is not itself a header string, is not already present,
and no existing link token is a header string.  Without these conditions the
claim fails: see the counterexample, where an id containing a comma is split
into two links on reparse. -/
theorem claim8_addLink_removeLink (notes : Option Str) (id : Str)
    (hid : TokenWf id) (hidh : id ≠ criticalHeader ∧ id ≠ relatedHeader)
    (hnot : id ∉ (parseNotes notes).links.getD [])
    (hhdr : ∀ x ∈ (parseNotes notes).links.getD [],
        x ≠ criticalHeader ∧ x ≠ relatedHeader) :
    (∀ y, y ∈ (parseNotes (some (removeLink (some (addLink notes id)) id))).links.getD [] ↔
        y ∈ (parseNotes notes).links.getD []) ∧
      (parseNotes (some (removeLink (some (addLink notes id)) id))).content =
        (parseNotes notes).content ∧
      (parseNotes (some (removeLink (some (addLink notes id)) id))).critical =
        (parseNotes notes).critical := by
  obtain ⟨hcw, hkw, hlw⟩ := parseNotes_wf notes
  have hlwl : ∀ x ∈ (parseNotes notes).links.getD [], TokenWf x := by
    cases hcl : (parseNotes notes).links with
    | none => simp
    | some l0 => simpa using hlw l0 hcl
  set l := (parseNotes notes).links.getD [] with hldef
  have hded : dedupFS (l ++ [id]) = dedupFS l ++ [id] := dedupFS_append_singleton hnot
  have htok2 : ∀ x ∈ dedupFS l, TokenWf x := fun x hx => hlwl x (mem_dedupFS.mp hx)
  have hhd2 : ∀ x ∈ dedupFS l, x ≠ criticalHeader ∧ x ≠ relatedHeader :=
    fun x hx => hhdr x (mem_dedupFS.mp hx)
  have hne1 : dedupFS l ++ [id] ≠ [] := by simp
  have htok1 : ∀ x ∈ dedupFS l ++ [id], TokenWf x := by
    intro x hx
    rcases List.mem_append.mp hx with h1 | h2
    · exact htok2 x h1
    · rw [List.mem_singleton] at h2
      subst h2
      exact hid
  have hhd1 : ∀ x ∈ dedupFS l ++ [id], x ≠ criticalHeader ∧ x ≠ relatedHeader := by
    intro x hx
    rcases List.mem_append.mp hx with h1 | h2
    · exact hhd2 x h1
    · rw [List.mem_singleton] at h2
      subst h2
      exact hidh
  have hA : parseNotes (some (addLink notes id)) =
      ⟨(parseNotes notes).content, (parseNotes notes).critical,
        some (dedupFS l ++ [id])⟩ := by
    simp only [addLink]
    rw [← hldef, hded]
    have h := parse_format_wf ⟨(parseNotes notes).content, (parseNotes notes).critical,
      some (dedupFS l ++ [id])⟩ hcw hkw ⟨hne1, htok1⟩
    rw [reparsedLinks_some, if_neg (by
      intro hor
      have hhd := joinSep_comma_ne_headers hne1 hhd1
      rcases hor with h1 | h2
      · exact hhd.1 h1
      · exact hhd.2 h2)] at h
    exact h
  have hfil : (dedupFS l ++ [id]).filter (fun x => decide (¬ x = id)) = dedupFS l := by
    rw [List.filter_append, filter_ne_eq_self (fun hmem => hnot (mem_dedupFS.mp hmem))]
    simp
  have hB : parseNotes (some (removeLink (some (addLink notes id)) id)) =
      ⟨(parseNotes notes).content, (parseNotes notes).critical,
        if dedupFS l = [] then none else some (dedupFS l)⟩ := by
    simp only [removeLink]
    rw [hA]
    dsimp only
    simp only [Option.map_some']
    rw [hfil]
    by_cases hdl : dedupFS l = []
    · rw [if_pos (by rw [hdl]), if_pos hdl]
      exact parse_format_wf ⟨(parseNotes notes).content, (parseNotes notes).critical,
        none⟩ hcw hkw trivial
    · rw [if_neg (fun hx => hdl (Option.some.injEq _ _ ▸ hx)), if_neg hdl]
      have h := parse_format_wf ⟨(parseNotes notes).content, (parseNotes notes).critical,
        some (dedupFS l)⟩ hcw hkw ⟨hdl, htok2⟩
      rw [reparsedLinks_some, if_neg (by
        intro hor
        have hhd := joinSep_comma_ne_headers hdl hhd2
        rcases hor with h1 | h2
        · exact hhd.1 h1
        · exact hhd.2 h2)] at h
      exact h
  refine ⟨?_, by rw [hB], by rw [hB]⟩
  intro y
  rw [hB]
  by_cases hdl : dedupFS l = []
  · rw [if_pos hdl]
    have hl0 : l = [] := dedupFS_eq_nil_iff.mp hdl
    simp [hl0]
  · rw [if_neg hdl]
    simp only [Option.getD_some]
    exact mem_dedupFS

/-- Claim C8 counterexample: with absent text and id `"A,B"` (not present in
the empty link set), add-then-remove does not restore the empty link set —
the formatted line `A, B` reparses as two links, neither equal to `"A,B"`, so
the final parse has links `["A","B"]` while the original had none. -/
theorem claim8_counterexample :
    (parseNotes none).links = none ∧
      removeLink (some (addLink none "A,B".data)) "A,B".data = "Related:\nA, B".data ∧
      (parseNotes (some (removeLink (some (addLink none "A,B".data)) "A,B".data))).links =
        some ["A".data, "B".data] := by decide

/-- Claim C8 witness. -/
theorem claim8_witness :
    TokenWf "BBB".data ∧
      "BBB".data ∉ (parseNotes (some "Hello\n\nRelated:\nAAA".data)).links.getD [] ∧
      ((parseNotes (some (removeLink (some (addLink (some "Hello\n\nRelated:\nAAA".data)
          "BBB".data)) "BBB".data))).content =
        (parseNotes (some "Hello\n\nRelated:\nAAA".data)).content) ∧
      ("AAA".data ∈ (parseNotes (some (removeLink (some (addLink
          (some "Hello\n\nRelated:\nAAA".data) "BBB".data)) "BBB".data))).links.getD [] ↔
        "AAA".data ∈ (parseNotes (some "Hello\n\nRelated:\nAAA".data)).links.getD []) :=
  ⟨by decide, by decide,
    (claim8_addLink_removeLink (some "Hello\n\nRelated:\nAAA".data) "BBB".data
      (by decide) (by decide) (by decide) (by decide)).2.1,
    (claim8_addLink_removeLink (some "Hello\n\nRelated:\nAAA".data) "BBB".data
      (by decide) (by decide) (by decide) (by decide)).1 "AAA".data⟩

/-! ## Conformance of the embedding with the repository's test suite -/

example : formatNotes ⟨some "Check security issues".data, some "Blocking release".data,
    some ["ABC123".data, "DEF456".data]⟩ =
    "Check security issues\n\nCritical:\nBlocking release\n\nRelated:\nABC123, DEF456".data := by
  decide

example : parseNotes (some "Related:\nABC , DEF , GHI".data) =
    ⟨none, none, some ["ABC".data, "DEF".data, "GHI".data]⟩ := by decide

example : parseNotes (some "Related:\n,".data) = ⟨none, none, some []⟩ := by decide

example : mergeNotes ⟨none, none, some ["A".data, "B".data]⟩ ⟨none, none, some ["B".data, "C".data]⟩ =
    ⟨none, none, some ["A".data, "B".data, "C".data]⟩ := by decide

example : setCritical (some "Body".data) "Urgent".data = "Body\n\nCritical:\nUrgent".data := by
  decide

example : clearCritical (some "Body\n\nCritical:\nUrgent".data) = "Body".data := by decide

end NotesCodec
